import Mathlib

/-!
Verification of the dynamic-buffer message framing (`src/dynBuf.ts`) and the
TCP connection read/write adapter (`src/unnamed/part_001`) of the
line-oriented echo server.

Bytes are modelled as `Nat`, Node `Buffer`s as `List Nat`.  `Buffer.copy`
clamps the number of copied bytes to what fits in the target, and
`Buffer.copyWithin` is an overlapping move; both are modelled explicitly
below.
-/

/-- The newline delimiter byte `\n` (0x0A). -/
def delim : Nat := 10

/-- Models `src.copy(target, tStart, sStart)` on Node buffers: copies bytes
from `src` starting at `sStart` into `target` starting at `tStart`, clamped
to what fits in `target`; returns the updated target contents. -/
def bufCopy (src target : List Nat) (tStart sStart : Nat) : List Nat :=
  let n := min (src.length - sStart) (target.length - tStart)
  target.take tStart ++ (src.drop sStart).take n ++ target.drop (tStart + n)

/-- Models `buf.copyWithin(0, start, finish)` on a Node buffer: moves the
region `[start, finish)` down to offset 0 (memmove semantics), leaving the
rest of the storage unchanged. -/
def bufCopyWithin (data : List Nat) (start finish : Nat) : List Nat :=
  let region := (data.take finish).drop start
  region ++ data.drop region.length

/-- Models the growth loop of `bufPush`: `while (cap < newLen) cap *= 2`.
The first argument is fuel guaranteeing termination; since the loop is
entered with `cap ≥ 32`, fuel `newLen` always suffices to reach the fixed
point, so with that fuel this equals the source loop. -/
def growLoop : Nat → Nat → Nat → Nat
  | 0, cap, _ => cap
  | fuel + 1, cap, newLen => if cap < newLen then growLoop fuel (cap * 2) newLen else cap

/-- Models `buffer.subarray(0, len).indexOf("\n")` (first index of the
delimiter byte, `none` for -1). -/
def firstDelimIdx : List Nat → Option Nat
  | [] => none
  | b :: rest => if b = delim then some 0 else (firstDelimIdx rest).map (fun i => i + 1)

/-- The dynamic buffer of `src/dynBuf.ts`: `data` is the storage (its list
length is the capacity) and `length` is the count of valid bytes at the
front. -/
structure DynBuf where
  data : List Nat
  length : Nat
deriving Repr, DecidableEq

/-- The valid contents of the buffer: bytes `[0, length)` of the storage. -/
def bufContents (buf : DynBuf) : List Nat := buf.data.take buf.length

/-- Well-formedness: the valid length never exceeds the storage capacity. -/
def bufWF (buf : DynBuf) : Prop := buf.length ≤ buf.data.length

/-- A buffer created empty (`{data: Buffer.alloc(0), length: 0}`). -/
def emptyBuf : DynBuf := { data := [], length := 0 }

/-- `bufPush` (first variant, src/dynBuf.ts lines 13-30): grows the storage
geometrically if needed (doubling from `max(capacity, 32)`), copies the old
bytes over, appends `data` after the valid region, and updates `length`. -/
def bufPush (buf : DynBuf) (data : List Nat) : DynBuf :=
  let newLen := buf.length + data.length
  let buf1 :=
    if buf.data.length < newLen then
      let cap := growLoop newLen (max buf.data.length 32) newLen
      let grownBuf := bufCopy buf.data (List.replicate cap 0) 0 0
      { buf with data := grownBuf }
    else buf
  { data := bufCopy data buf1.data buf1.length 0, length := newLen }

/-- `bufPush` (second, duplicated variant, src/dynBuf.ts lines 70-88): the
same growth path but it additionally sets `buf.length = cap` inside the
growth branch before appending. -/
def bufPush2 (buf : DynBuf) (data : List Nat) : DynBuf :=
  let newLen := buf.length + data.length
  let buf1 :=
    if buf.data.length < newLen then
      let cap := growLoop newLen (max buf.data.length 32) newLen
      let grownBuf := bufCopy buf.data (List.replicate cap 0) 0 0
      { data := grownBuf, length := cap }
    else buf
  { data := bufCopy data buf1.data buf1.length 0, length := newLen }

/-- `bufPop` (src/dynBuf.ts lines 38-43): shifts bytes `[len, length)` to the
front with `copyWithin` and decrements `length`. -/
def bufPop (buf : DynBuf) (len : Nat) : DynBuf :=
  { data := bufCopyWithin buf.data len buf.length, length := buf.length - len }

/-- `cutMessage` (src/dynBuf.ts lines 51-62): scans the valid region for the
delimiter; if absent returns `null` leaving the buffer untouched, otherwise
copies out bytes `[0, i+1]` and pops them. -/
def cutMessage (buf : DynBuf) : Option (List Nat) × DynBuf :=
  match firstDelimIdx (buf.data.take buf.length) with
  | none => (none, buf)
  | some delimIdx => (some (buf.data.take (delimIdx + 1)), bufPop buf (delimIdx + 1))

/-- Folds `bufPush` over a list of received chunks. -/
def pushAll (buf : DynBuf) (chunks : List (List Nat)) : DynBuf :=
  chunks.foldl bufPush buf

/-- Calls `cutMessage` up to `n` times, collecting the extracted messages in
order and stopping early at the first `null`. -/
def drainMessages : Nat → DynBuf → List (List Nat) × DynBuf
  | 0, buf => ([], buf)
  | n + 1, buf =>
    match cutMessage buf with
    | (none, _) => ([], buf)
    | (some m, buf1) =>
      let rest := drainMessages n buf1
      (m :: rest.1, rest.2)

-- Spec-side description of framing, used to state what `cutMessage` must
-- compute.

/-- Spec-side: one framing step on a plain byte list — the bytes up to and
including the first delimiter, and the rest. -/
def splitOnce (s : List Nat) : Option (List Nat) × List Nat :=
  match firstDelimIdx s with
  | none => (none, s)
  | some i => (some (s.take (i + 1)), s.drop (i + 1))

/-- Spec-side: all delimited messages of a byte stream (each including its
delimiter, in order) together with the undelimited remainder. -/
def splitMessages : List Nat → List (List Nat) × List Nat
  | [] => ([], [])
  | b :: rest =>
    if b = delim then
      ([delim] :: (splitMessages rest).1, (splitMessages rest).2)
    else
      match splitMessages rest with
      | ([], r) => ([], b :: r)
      | (m :: ms, r) => ((b :: m) :: ms, r)

/-- Spec-side: iterate `splitOnce` up to `n` times. -/
def splitN : Nat → List Nat → List (List Nat) × List Nat
  | 0, s => ([], s)
  | n + 1, s =>
    match splitOnce s with
    | (none, _) => ([], s)
    | (some m, r) =>
      let rest := splitN n r
      (m :: rest.1, rest.2)

theorem bufCopy_length (src target : List Nat) (a b : Nat) :
    (bufCopy src target a b).length = target.length := by
  simp only [bufCopy, List.length_append, List.length_take, List.length_drop]
  omega

theorem bufCopyWithin_length (data : List Nat) (s f : Nat) :
    (bufCopyWithin data s f).length = data.length := by
  simp only [bufCopyWithin, List.length_append, List.length_drop, List.length_take]
  omega

theorem le_growLoop (fuel cap n : Nat) : cap ≤ growLoop fuel cap n := by
  induction fuel generalizing cap with
  | zero => simp [growLoop]
  | succ fuel ih =>
    simp only [growLoop]
    split
    · exact le_trans (by omega) (ih (cap * 2))
    · exact le_refl cap

theorem growLoop_ge (fuel cap n : Nat) (hc : 0 < cap) (h : n ≤ cap * 2 ^ fuel) :
    n ≤ growLoop fuel cap n := by
  induction fuel generalizing cap with
  | zero => simpa [growLoop] using h
  | succ fuel ih =>
    simp only [growLoop]
    split
    · have hm : cap * 2 * 2 ^ fuel = cap * 2 ^ (fuel + 1) := by ring
      exact ih (cap * 2) (by omega) (by rw [hm]; exact h)
    · omega

theorem growLoop_pow (fuel cap n : Nat) : ∃ j, growLoop fuel cap n = cap * 2 ^ j := by
  induction fuel generalizing cap with
  | zero => exact ⟨0, by simp [growLoop]⟩
  | succ fuel ih =>
    simp only [growLoop]
    split
    · obtain ⟨j, hj⟩ := ih (cap * 2)
      exact ⟨j + 1, by rw [hj]; ring⟩
    · exact ⟨0, by simp⟩

theorem newLen_le_growLoop (c n : Nat) : n ≤ growLoop n (max c 32) n := by
  refine growLoop_ge n (max c 32) n (by omega) ?_
  calc n ≤ 2 ^ n := le_of_lt (Nat.lt_two_pow n)
    _ = 1 * 2 ^ n := (one_mul _).symm
    _ ≤ max c 32 * 2 ^ n := Nat.mul_le_mul_right _ (by omega)

theorem grow_storage (src : List Nat) (cap : Nat) (h : src.length ≤ cap) :
    bufCopy src (List.replicate cap 0) 0 0 = src ++ List.replicate (cap - src.length) 0 := by
  simp only [bufCopy, List.drop_zero, List.length_replicate, Nat.sub_zero, List.take_zero,
    List.nil_append, Nat.zero_add, List.drop_replicate]
  rw [min_eq_left h, List.take_length]

theorem bufWF_iff (buf : DynBuf) : bufWF buf ↔ buf.length ≤ buf.data.length := Iff.rfl

theorem bufCopy_append_contents (c storage : List Nat) (L : Nat)
    (h : L + c.length ≤ storage.length) :
    (bufCopy c storage L 0).take (L + c.length) = storage.take L ++ c := by
  have hn : min (c.length - 0) (storage.length - L) = c.length := by omega
  simp only [bufCopy, hn, List.drop_zero, List.take_length]
  rw [List.take_append_eq_append_take]
  have h1 : (storage.take L ++ c).length = L + c.length := by
    simp only [List.length_append, List.length_take]
    omega
  rw [h1, Nat.sub_self, List.take_zero, List.append_nil,
    List.take_of_length_le (le_of_eq h1)]

theorem bufPush_capacity (buf : DynBuf) (c : List Nat) :
    (bufPush buf c).data.length =
      (if buf.data.length < buf.length + c.length then
        growLoop (buf.length + c.length) (max buf.data.length 32) (buf.length + c.length)
      else buf.data.length) := by
  simp only [bufPush]
  split
  · simp [bufCopy_length, List.length_replicate]
  · simp [bufCopy_length]

theorem bufPush_wf (buf : DynBuf) (c : List Nat) : bufWF (bufPush buf c) := by
  have hcap := bufPush_capacity buf c
  have hlen : (bufPush buf c).length = buf.length + c.length := by
    simp only [bufPush]
  rw [bufWF_iff, hcap, hlen]
  split
  · exact newLen_le_growLoop _ _
  · omega

theorem bufPush_cap_mono (buf : DynBuf) (c : List Nat) :
    buf.data.length ≤ (bufPush buf c).data.length := by
  rw [bufPush_capacity]
  split
  · exact le_trans (le_max_left _ 32) (le_growLoop _ _ _)
  · exact le_refl _

theorem bufPush_contents (buf : DynBuf) (c : List Nat) (hwf : bufWF buf) :
    bufContents (bufPush buf c) = bufContents buf ++ c := by
  rw [bufWF_iff] at hwf
  simp only [bufPush, bufContents]
  split
  · next hgrow =>
    set cap := growLoop (buf.length + c.length) (max buf.data.length 32)
      (buf.length + c.length) with hcapdef
    have hcap1 : buf.data.length ≤ cap := le_trans (le_max_left _ 32) (le_growLoop _ _ _)
    have hcap2 : buf.length + c.length ≤ cap := newLen_le_growLoop _ _
    rw [grow_storage _ _ hcap1]
    have hlen : (buf.data ++ List.replicate (cap - buf.data.length) 0).length = cap := by
      simp [List.length_append, List.length_replicate]; omega
    rw [bufCopy_append_contents _ _ _ (by rw [hlen]; exact hcap2)]
    rw [List.take_append_eq_append_take]
    have h0 : buf.length - buf.data.length = 0 := by omega
    rw [h0, List.take_zero, List.append_nil]
  · next hfit =>
    exact bufCopy_append_contents _ _ _ (by omega)

theorem bufPop_cap (buf : DynBuf) (n : Nat) : (bufPop buf n).data.length = buf.data.length :=
  bufCopyWithin_length ..

theorem bufPop_wf (buf : DynBuf) (n : Nat) (hwf : bufWF buf) : bufWF (bufPop buf n) := by
  rw [bufWF_iff] at hwf
  rw [bufWF_iff, bufPop_cap]
  simp only [bufPop]
  omega

theorem bufPop_contents (buf : DynBuf) (n : Nat) (hwf : bufWF buf) (hn : n ≤ buf.length) :
    bufContents (bufPop buf n) = (bufContents buf).drop n := by
  rw [bufWF_iff] at hwf
  simp only [bufPop, bufContents, bufCopyWithin]
  have hr : ((buf.data.take buf.length).drop n).length = buf.length - n := by
    simp [List.length_drop, List.length_take]; omega
  rw [List.take_append_eq_append_take, hr]
  have h0 : buf.length - n - (buf.length - n) = 0 := by omega
  rw [h0, List.take_zero, List.append_nil, List.take_of_length_le (by omega)]

theorem firstDelimIdx_eq_none_iff (s : List Nat) : firstDelimIdx s = none ↔ delim ∉ s := by
  induction s with
  | nil => simp [firstDelimIdx]
  | cons b rest ih =>
    simp only [firstDelimIdx]
    split
    · next hb => simp [hb]
    · next hb =>
      rw [Option.map_eq_none', ih]
      simp [List.mem_cons, Ne.symm hb]

theorem firstDelimIdx_lt_length (s : List Nat) (i : Nat) (h : firstDelimIdx s = some i) :
    i < s.length := by
  induction s generalizing i with
  | nil => simp [firstDelimIdx] at h
  | cons b rest ih =>
    simp only [firstDelimIdx] at h
    split at h
    · cases h
      simp
    · rw [Option.map_eq_some'] at h
      obtain ⟨j, hj, hij⟩ := h
      subst hij
      have := ih j hj
      simp only [List.length_cons]
      omega

theorem cutMessage_eq_splitOnce (buf : DynBuf) (hwf : bufWF buf) :
    (cutMessage buf).1 = (splitOnce (bufContents buf)).1 ∧
    bufContents (cutMessage buf).2 = (splitOnce (bufContents buf)).2 ∧
    bufWF (cutMessage buf).2 := by
  have hwf' := (bufWF_iff buf).mp hwf
  cases hfd : firstDelimIdx (buf.data.take buf.length) with
  | none =>
    simp only [cutMessage, splitOnce, bufContents, hfd]
    exact ⟨trivial, trivial, hwf⟩
  | some i =>
    have hi : i < (buf.data.take buf.length).length := firstDelimIdx_lt_length _ _ hfd
    rw [List.length_take] at hi
    have hi' : i + 1 ≤ buf.length := by omega
    simp only [cutMessage, splitOnce, bufContents, hfd]
    refine ⟨?_, ?_, ?_⟩
    · rw [List.take_take, min_eq_left hi']
    · simpa [bufContents] using bufPop_contents buf (i + 1) hwf hi'
    · exact bufPop_wf buf (i + 1) hwf

theorem splitOnce_none_eq (s : List Nat) (h : (splitOnce s).1 = none) :
    splitOnce s = (none, s) := by
  cases hfd : firstDelimIdx s with
  | none => simp [splitOnce, hfd]
  | some i => simp [splitOnce, hfd] at h

theorem drainMessages_eq_splitN (n : Nat) (buf : DynBuf) (hwf : bufWF buf) :
    (drainMessages n buf).1 = (splitN n (bufContents buf)).1 ∧
    bufContents (drainMessages n buf).2 = (splitN n (bufContents buf)).2 ∧
    bufWF (drainMessages n buf).2 := by
  induction n generalizing buf with
  | zero => exact ⟨rfl, rfl, hwf⟩
  | succ n ih =>
    obtain ⟨h1, h2, h3⟩ := cutMessage_eq_splitOnce buf hwf
    cases hcut : cutMessage buf with
    | mk o buf1 =>
      rw [hcut] at h1 h2 h3
      dsimp only at h1 h2 h3
      cases o with
      | none =>
        have hso : splitOnce (bufContents buf) = (none, bufContents buf) :=
          splitOnce_none_eq _ h1.symm
        simp only [drainMessages, splitN, hcut, hso]
        exact ⟨trivial, trivial, hwf⟩
      | some m =>
        cases hsp : splitOnce (bufContents buf) with
        | mk o2 r =>
          rw [hsp] at h1 h2
          dsimp only at h1 h2
          subst h1
          simp only [drainMessages, splitN, hcut, hsp]
          obtain ⟨i1, i2, i3⟩ := ih buf1 h3
          rw [h2] at i1 i2
          exact ⟨by rw [i1], by rw [i2], i3⟩

theorem splitMessages_no_delim (s : List Nat) (h : delim ∉ s) : splitMessages s = ([], s) := by
  induction s with
  | nil => rfl
  | cons b rest ih =>
    simp only [List.mem_cons, not_or] at h
    simp only [splitMessages]
    rw [if_neg (fun hb => h.1 hb.symm), ih h.2]

theorem splitMessages_step (s : List Nat) (i : Nat) (h : firstDelimIdx s = some i) :
    (splitMessages s).1 = s.take (i + 1) :: (splitMessages (s.drop (i + 1))).1 ∧
    (splitMessages s).2 = (splitMessages (s.drop (i + 1))).2 ∧
    s.count delim = (s.drop (i + 1)).count delim + 1 := by
  induction s generalizing i with
  | nil => simp [firstDelimIdx] at h
  | cons b rest ih =>
    simp only [firstDelimIdx] at h
    split at h
    · next hb =>
      cases h
      subst hb
      refine ⟨?_, ?_, ?_⟩
      · simp [splitMessages]
      · simp [splitMessages]
      · simp [List.count_cons]
    · next hb =>
      rw [Option.map_eq_some'] at h
      obtain ⟨j, hj, hij⟩ := h
      subst hij
      obtain ⟨ih1, ih2, ih3⟩ := ih j hj
      cases hsm : splitMessages rest with
      | mk ms r =>
        rw [hsm] at ih1 ih2
        dsimp only at ih1 ih2
        subst ih1
        refine ⟨?_, ?_, ?_⟩
        · simp only [splitMessages, if_neg hb, hsm, List.take_succ_cons, List.drop_succ_cons]
        · simp only [splitMessages, if_neg hb, hsm, List.drop_succ_cons, ih2]
        · simp [List.count_cons, List.drop_succ_cons, hb]
          omega

theorem splitMessages_length (s : List Nat) : (splitMessages s).1.length = s.count delim := by
  induction s with
  | nil => simp [splitMessages]
  | cons b rest ih =>
    by_cases hb : b = delim
    · subst hb
      simp [splitMessages, List.count_cons, ih]
    · simp only [splitMessages, if_neg hb]
      cases hsm : splitMessages rest with
      | mk ms r =>
        rw [hsm] at ih
        dsimp only at ih
        cases ms with
        | nil => simpa [List.count_cons, if_neg hb] using ih
        | cons m tail => simpa [List.count_cons, if_neg hb] using ih

theorem splitMessages_rem_no_delim (s : List Nat) : delim ∉ (splitMessages s).2 := by
  induction s with
  | nil => simp [splitMessages]
  | cons b rest ih =>
    by_cases hb : b = delim
    · subst hb
      simpa [splitMessages] using ih
    · simp only [splitMessages, if_neg hb]
      cases hsm : splitMessages rest with
      | mk ms r =>
        rw [hsm] at ih
        simp only at ih
        cases ms with
        | nil =>
          simp only [List.mem_cons, not_or]
          exact ⟨fun hc => hb hc.symm, ih⟩
        | cons m tail => simpa using ih

theorem splitN_complete (k : Nat) (s : List Nat) (h : s.count delim = k) :
    splitN k s = splitMessages s := by
  induction k generalizing s with
  | zero =>
    have hno : delim ∉ s := List.count_eq_zero.mp h
    rw [splitMessages_no_delim s hno]
    rfl
  | succ k ih =>
    have hmem : delim ∈ s := by
      by_contra hno
      rw [List.count_eq_zero.mpr hno] at h
      omega
    have hfd : ∃ i, firstDelimIdx s = some i := by
      cases hq : firstDelimIdx s with
      | none => exact absurd hmem ((firstDelimIdx_eq_none_iff s).mp hq)
      | some i => exact ⟨i, rfl⟩
    obtain ⟨i, hi⟩ := hfd
    obtain ⟨st1, st2, st3⟩ := splitMessages_step s i hi
    have hr : (s.drop (i + 1)).count delim = k := by omega
    simp only [splitN, splitOnce, hi]
    rw [ih _ hr]
    have heta : splitMessages s = ((splitMessages s).1, (splitMessages s).2) := rfl
    rw [heta, st1, st2]

theorem emptyBuf_wf : bufWF emptyBuf := Nat.le.refl

theorem pushAll_contents (chunks : List (List Nat)) (buf : DynBuf) (hwf : bufWF buf) :
    bufContents (pushAll buf chunks) = bufContents buf ++ chunks.flatten ∧
    bufWF (pushAll buf chunks) := by
  induction chunks generalizing buf with
  | nil => simpa [pushAll] using hwf
  | cons c cs ih =>
    obtain ⟨h1, h2⟩ := ih (bufPush buf c) (bufPush_wf buf c)
    simp only [pushAll, List.foldl_cons] at h1 h2 ⊢
    refine ⟨?_, h2⟩
    rw [h1, bufPush_contents buf c hwf, List.append_assoc, List.flatten_cons]

theorem cutMessage_of_no_delim (buf : DynBuf) (hno : delim ∉ bufContents buf) :
    cutMessage buf = (none, buf) := by
  have hfd : firstDelimIdx (buf.data.take buf.length) = none :=
    (firstDelimIdx_eq_none_iff _).mpr hno
  simp only [cutMessage, hfd]

/-- C1: starting from an empty buffer, after appending any sequence of chunks
with `bufPush`, if the concatenated stream contains `k` newline delimiters
then `k` successive `cutMessage` calls return exactly the delimited messages,
each equal to the bytes up to and including its delimiter, in stream order,
and the next `cutMessage` call returns `null` leaving the buffer unchanged
with exactly the undelimited remainder as its valid contents. -/
theorem C1_framing_stream (chunks : List (List Nat)) :
    (drainMessages (chunks.flatten.count delim) (pushAll emptyBuf chunks)).1
        = (splitMessages chunks.flatten).1 ∧
    (drainMessages (chunks.flatten.count delim) (pushAll emptyBuf chunks)).1.length
        = chunks.flatten.count delim ∧
    bufContents (drainMessages (chunks.flatten.count delim) (pushAll emptyBuf chunks)).2
        = (splitMessages chunks.flatten).2 ∧
    cutMessage (drainMessages (chunks.flatten.count delim) (pushAll emptyBuf chunks)).2
        = (none, (drainMessages (chunks.flatten.count delim) (pushAll emptyBuf chunks)).2) := by
  obtain ⟨hc, hw⟩ := pushAll_contents chunks emptyBuf emptyBuf_wf
  have hce : bufContents emptyBuf ++ chunks.flatten = chunks.flatten := rfl
  rw [hce] at hc
  obtain ⟨d1, d2, d3⟩ :=
    drainMessages_eq_splitN (chunks.flatten.count delim) (pushAll emptyBuf chunks) hw
  rw [hc] at d1 d2
  rw [splitN_complete (chunks.flatten.count delim) chunks.flatten rfl] at d1 d2
  refine ⟨d1, ?_, d2, ?_⟩
  · rw [d1, splitMessages_length]
  · apply cutMessage_of_no_delim
    rw [d2]
    exact splitMessages_rem_no_delim chunks.flatten

/-- C4: a buffer whose valid region has no delimiter yields `null` from
`cutMessage` with the buffer left unmodified; that stays true after appending
any delimiter-free chunks; and once appended chunks jointly contain a
delimiter (even split across chunks), `cutMessage` returns the message up to
and including the first delimiter. -/
theorem C4_no_delim_frame (buf : DynBuf) (chunks : List (List Nat))
    (hwf : bufWF buf) (hno : delim ∉ bufContents buf) :
    cutMessage buf = (none, buf) ∧
    ((∀ c ∈ chunks, delim ∉ c) →
      cutMessage (pushAll buf chunks) = (none, pushAll buf chunks)) ∧
    (delim ∈ chunks.flatten →
      (cutMessage (pushAll buf chunks)).1
          = (splitOnce (bufContents buf ++ chunks.flatten)).1 ∧
      (cutMessage (pushAll buf chunks)).1 ≠ none) := by
  obtain ⟨hc, hw⟩ := pushAll_contents chunks buf hwf
  refine ⟨cutMessage_of_no_delim buf hno, ?_, ?_⟩
  · intro hfree
    apply cutMessage_of_no_delim
    rw [hc]
    simp only [List.mem_append, not_or]
    refine ⟨hno, fun hmem => ?_⟩
    obtain ⟨l, hl, hdl⟩ := List.mem_flatten.mp hmem
    exact (hfree l hl) hdl
  · intro hmem
    have h1 := (cutMessage_eq_splitOnce (pushAll buf chunks) hw).1
    rw [hc] at h1
    refine ⟨h1, ?_⟩
    rw [h1]
    have hin : delim ∈ bufContents buf ++ chunks.flatten := List.mem_append.mpr (Or.inr hmem)
    cases hq : firstDelimIdx (bufContents buf ++ chunks.flatten) with
    | none => exact absurd hin ((firstDelimIdx_eq_none_iff _).mp hq)
    | some i => simp [splitOnce, hq]

/-- Witness for C4 at a concrete buffer and chunks, with the delimiter split
across separately appended chunks. -/
theorem C4_no_delim_frame_witness :
    bufWF (DynBuf.mk [104, 0] 1) ∧ delim ∉ bufContents (DynBuf.mk [104, 0] 1) ∧
    (cutMessage (DynBuf.mk [104, 0] 1) = (none, DynBuf.mk [104, 0] 1) ∧
    ((∀ c ∈ [[101], [10, 102]], delim ∉ c) →
      cutMessage (pushAll (DynBuf.mk [104, 0] 1) [[101], [10, 102]])
          = (none, pushAll (DynBuf.mk [104, 0] 1) [[101], [10, 102]])) ∧
    (delim ∈ [[101], [10, 102]].flatten →
      (cutMessage (pushAll (DynBuf.mk [104, 0] 1) [[101], [10, 102]])).1
          = (splitOnce (bufContents (DynBuf.mk [104, 0] 1) ++ [[101], [10, 102]].flatten)).1 ∧
      (cutMessage (pushAll (DynBuf.mk [104, 0] 1) [[101], [10, 102]])).1 ≠ none)) :=
  ⟨(bufWF_iff _).mpr (by decide), by decide,
    C4_no_delim_frame (DynBuf.mk [104, 0] 1) [[101], [10, 102]]
      ((bufWF_iff _).mpr (by decide)) (by decide)⟩

/-- C9: the two duplicated `bufPush` variants are not equivalent — on a state
and chunk that trigger reallocation, the variant that sets `length` to the new
capacity during growth (`bufPush2`) leaves different valid bytes than the
variant updating only the true content length (`bufPush`). -/
theorem C9_variants_not_equivalent :
    ∃ (buf : DynBuf) (chunk : List Nat),
      bufWF buf ∧ buf.data.length < buf.length + chunk.length ∧
      bufContents (bufPush buf chunk) ≠ bufContents (bufPush2 buf chunk) :=
  ⟨emptyBuf, [104, 105, 10], Nat.le.refl, by decide, by decide⟩

/-- C10: `cutMessage` scans only the valid region — if the bytes below
`length` contain no delimiter, it returns `null` and leaves the buffer
unmodified, even when stale storage bytes at or beyond `length` do contain
a delimiter. -/
theorem C10_stale_bytes_ignored (buf : DynBuf)
    (hno : delim ∉ buf.data.take buf.length)
    (_hstale : delim ∈ buf.data.drop buf.length) :
    cutMessage buf = (none, buf) :=
  cutMessage_of_no_delim buf hno

/-- Witness for C10: the buffer left by an earlier `cutMessage` (which uses
`bufPop`) has a stale delimiter beyond `length`, yet `cutMessage` returns
`null`. -/
theorem C10_stale_bytes_ignored_witness :
    delim ∉ ((cutMessage (bufPush emptyBuf [97, 10, 98])).2.data.take
        (cutMessage (bufPush emptyBuf [97, 10, 98])).2.length) ∧
    delim ∈ ((cutMessage (bufPush emptyBuf [97, 10, 98])).2.data.drop
        (cutMessage (bufPush emptyBuf [97, 10, 98])).2.length) ∧
    cutMessage (cutMessage (bufPush emptyBuf [97, 10, 98])).2
        = (none, (cutMessage (bufPush emptyBuf [97, 10, 98])).2) :=
  ⟨by decide, by decide, C10_stale_bytes_ignored _ (by decide) (by decide)⟩

/-- An operation on the dynamic buffer: an append or a pop-front. -/
inductive BufOp where
  | push (chunk : List Nat)
  | pop (len : Nat)
deriving Repr, DecidableEq

/-- Apply one buffer operation. -/
def applyOp (buf : DynBuf) (op : BufOp) : DynBuf :=
  match op with
  | .push c => bufPush buf c
  | .pop n => bufPop buf n

/-- Checks that every `pop` in the sequence respects the precondition
`len ≤ buf.length` at the state where it runs. -/
def validOpsB : DynBuf → List BufOp → Bool
  | _, [] => true
  | buf, op :: ops =>
    (match op with
     | .push _ => true
     | .pop n => decide (n ≤ buf.length)) && validOpsB (applyOp buf op) ops

/-- The trace of buffer states along a sequence of operations (initial state
included). -/
def bufStates (buf : DynBuf) : List BufOp → List DynBuf
  | [] => [buf]
  | op :: ops => buf :: bufStates (applyOp buf op) ops

/-- A storage capacity allowed by the spec: the initial (empty) capacity, or
32 times a power of two. -/
def capOK (c : Nat) : Prop := c = emptyBuf.data.length ∨ ∃ j, c = 32 * 2 ^ j

theorem capOK_bufPush (buf : DynBuf) (c : List Nat) (h : capOK buf.data.length) :
    capOK (bufPush buf c).data.length := by
  rw [bufPush_capacity]
  split
  · obtain ⟨j, hj⟩ :=
      growLoop_pow (buf.length + c.length) (max buf.data.length 32) (buf.length + c.length)
    rcases h with h0 | ⟨i, hi⟩
    · have h0n : buf.data.length = 0 := h0
      have hmax : max buf.data.length 32 = 32 := by
        omega
      exact Or.inr ⟨j, by rw [hj, hmax]⟩
    · have h2i : (1 : Nat) ≤ 2 ^ i := Nat.one_le_two_pow
      have hmax : max buf.data.length 32 = 32 * 2 ^ i := by
        rw [hi]
        omega
      refine Or.inr ⟨i + j, ?_⟩
      rw [hj, hmax]
      ring
  · exact h

theorem bufStates_invariant (ops : List BufOp) (buf : DynBuf)
    (hcap : capOK buf.data.length) (hwf : bufWF buf) (hv : validOpsB buf ops = true) :
    (∀ s ∈ bufStates buf ops, capOK s.data.length ∧ s.length ≤ s.data.length) ∧
    List.Chain' (fun a b => a.data.length ≤ b.data.length) (bufStates buf ops) := by
  induction ops generalizing buf with
  | nil =>
    refine ⟨?_, by simp [bufStates]⟩
    intro s hs
    simp only [bufStates, List.mem_singleton] at hs
    subst hs
    exact ⟨hcap, (bufWF_iff _).mp hwf⟩
  | cons op ops ih =>
    simp only [validOpsB, Bool.and_eq_true] at hv
    obtain ⟨_, hv2⟩ := hv
    have hcap2 : capOK (applyOp buf op).data.length := by
      cases op with
      | push c => exact capOK_bufPush buf c hcap
      | pop n => rw [applyOp, bufPop_cap]; exact hcap
    have hwf2 : bufWF (applyOp buf op) := by
      cases op with
      | push c => exact bufPush_wf buf c
      | pop n => exact bufPop_wf buf n hwf
    have hmono : buf.data.length ≤ (applyOp buf op).data.length := by
      cases op with
      | push c => exact bufPush_cap_mono buf c
      | pop n => rw [applyOp, bufPop_cap]
    obtain ⟨ihall, ihchain⟩ := ih (applyOp buf op) hcap2 hwf2 hv2
    constructor
    · intro s hs
      simp only [bufStates, List.mem_cons] at hs
      rcases hs with rfl | hs
      · exact ⟨hcap, (bufWF_iff _).mp hwf⟩
      · exact ihall s hs
    · rw [bufStates]
      have hhead : ∀ y ∈ (bufStates (applyOp buf op) ops).head?,
          buf.data.length ≤ y.data.length := by
        intro y hy
        cases ops with
        | nil => simp [bufStates] at hy; subst hy; exact hmono
        | cons o os => simp [bufStates] at hy; subst hy; exact hmono
      exact List.Chain'.cons' ihchain hhead

/-- C3: along any precondition-respecting sequence of `bufPush`/`bufPop`
operations from the empty buffer, every reached capacity is the initial
capacity or 32 times a power of two, the capacity is always at least the
valid length, the capacity never decreases across any operation, and
`bufPop` preserves the capacity exactly. -/
theorem C3_capacity_invariant (ops : List BufOp) (hv : validOpsB emptyBuf ops = true) :
    (∀ s ∈ bufStates emptyBuf ops, capOK s.data.length ∧ s.length ≤ s.data.length) ∧
    List.Chain' (fun a b => a.data.length ≤ b.data.length) (bufStates emptyBuf ops) ∧
    (∀ (b : DynBuf) (n : Nat), (bufPop b n).data.length = b.data.length) := by
  obtain ⟨h1, h2⟩ := bufStates_invariant ops emptyBuf (Or.inl rfl) Nat.le.refl hv
  exact ⟨h1, h2, fun b n => bufPop_cap b n⟩

/-- A concrete operation sequence exercising two growth steps and a pop. -/
def c3ops : List BufOp :=
  [BufOp.push (List.replicate 40 97), BufOp.pop 5, BufOp.push (List.replicate 30 98)]

/-- Witness for C3 at a concrete valid operation sequence. -/
theorem C3_capacity_invariant_witness :
    validOpsB emptyBuf c3ops = true ∧
    ((∀ s ∈ bufStates emptyBuf c3ops, capOK s.data.length ∧ s.length ≤ s.data.length) ∧
     List.Chain' (fun a b => a.data.length ≤ b.data.length) (bufStates emptyBuf c3ops) ∧
     (∀ (b : DynBuf) (n : Nat), (bufPop b n).data.length = b.data.length)) :=
  ⟨by decide, C3_capacity_invariant c3ops (by decide)⟩

-- Connection read/write adapter (src/unnamed/part_001).  The mutable
-- `TCPConn` record is modelled by explicit state passing; promise
-- resolutions and synchronous throws are modelled as result values.

/-- The per-connection state of the adapter (`TCPConn` in the source):
latched error, latched end-of-stream flag, and whether a read is pending
(the source stores the pending promise's callbacks; only presence matters
here). -/
structure TCPConn where
  err : Option String
  ended : Bool
  reader : Bool
deriving Repr, DecidableEq

/-- How a `soRead` call completes. -/
inductive ReadResult where
  | throwConcurrent
  | rejected (e : String)
  | resolvedEmpty
  | pending
deriving Repr, DecidableEq

/-- `soRead` (part_001 lines 60-78): throws on a concurrent read, rejects
with a latched error, resolves immediately empty once ended, otherwise
registers the pending reader (and resumes the socket). -/
def soRead (conn : TCPConn) : ReadResult × TCPConn :=
  if conn.reader then (.throwConcurrent, conn)
  else
    match conn.err with
    | some e => (.rejected e, conn)
    | none =>
      if conn.ended then (.resolvedEmpty, conn)
      else (.pending, { conn with reader := true })

/-- How a `soWrite` call completes. -/
inductive WriteResult where
  | throwInvalidArgument
  | rejected (e : String)
  | submitted
deriving Repr, DecidableEq

/-- `soWrite` (part_001 lines 32-50): throws on zero-length data, rejects
with a latched error, otherwise submits the bytes to the socket. -/
def soWrite (conn : TCPConn) (data : List Nat) : WriteResult :=
  if data.length = 0 then .throwInvalidArgument
  else
    match conn.err with
    | some e => .rejected e
    | none => .submitted

/-- A socket event delivered to the listeners installed by `soInit`. -/
inductive SockEvent where
  | data (chunk : List Nat)
  | eend
  | eerr (e : String)
deriving Repr, DecidableEq

/-- What happened to the pending read when an event fired. -/
inductive EventOutcome where
  | throwNoReader
  | resolvedWith (chunk : List Nat)
  | rejectedWith (e : String)
  | noPending
deriving Repr, DecidableEq

/-- The event listeners installed by `soInit` (part_001 lines 103-118):
a data event resolves the pending read (throwing if none is registered);
an end event latches `ended` and resolves a pending read with empty;
an error event latches `err` and rejects a pending read with it. -/
def handleEvent (conn : TCPConn) (ev : SockEvent) : TCPConn × EventOutcome :=
  match ev with
  | .data chunk =>
    if !conn.reader then (conn, .throwNoReader)
    else ({ conn with reader := false }, .resolvedWith chunk)
  | .eend =>
    if conn.reader then ({ conn with ended := true, reader := false }, .resolvedWith [])
    else ({ conn with ended := true }, .noPending)
  | .eerr e =>
    if conn.reader then ({ conn with err := some e, reader := false }, .rejectedWith e)
    else ({ conn with err := some e }, .noPending)

/-- One interaction with the connection: a `soRead` call, a `soWrite` call,
or a socket event. -/
inductive ConnAct where
  | read
  | write (data : List Nat)
  | ev (e : SockEvent)
deriving Repr, DecidableEq

/-- State transition of one interaction (`soWrite` does not modify the
connection record). -/
def stepConn (conn : TCPConn) (a : ConnAct) : TCPConn :=
  match a with
  | .read => (soRead conn).2
  | .write _ => conn
  | .ev e => (handleEvent conn e).1

/-- The fresh connection state built by `soInit`. -/
def initConn : TCPConn := { err := none, ended := false, reader := false }

/-- The trace of connection states along a sequence of interactions. -/
def connStates (conn : TCPConn) : List ConnAct → List TCPConn
  | [] => [conn]
  | a :: as => conn :: connStates (stepConn conn a) as

/-- The connection state after a sequence of interactions from `soInit`. -/
def runConn (acts : List ConnAct) : TCPConn := List.foldl stepConn initConn acts

/-- Reachable-state invariant: a latched error or end implies no reader is
registered (the latching event cleared it, and later reads refuse to
register). -/
def connInv (conn : TCPConn) : Prop :=
  (conn.err ≠ none → conn.reader = false) ∧ (conn.ended = true → conn.reader = false)

theorem connInv_init : connInv initConn := ⟨fun _ => rfl, fun _ => rfl⟩

theorem connInv_step (conn : TCPConn) (a : ConnAct) (h : connInv conn) :
    connInv (stepConn conn a) := by
  obtain ⟨h1, h2⟩ := h
  cases a with
  | read =>
    by_cases hr : conn.reader
    · simp only [stepConn, soRead, if_pos hr]
      exact ⟨h1, h2⟩
    · cases herr : conn.err with
      | some e =>
        simp only [stepConn, soRead, if_neg hr, herr]
        exact ⟨h1, h2⟩
      | none =>
        by_cases hend : conn.ended
        · simp only [stepConn, soRead, if_neg hr, herr, if_pos hend]
          exact ⟨h1, h2⟩
        · simp only [stepConn, soRead, if_neg hr, herr, if_neg hend]
          refine ⟨fun hc => ?_, fun hc => ?_⟩
          · dsimp only at hc
            exact absurd rfl hc
          · dsimp only at hc
            exact absurd hc hend
  | write d => exact ⟨h1, h2⟩
  | ev e =>
    cases e with
    | data chunk =>
      simp only [stepConn, handleEvent]
      split
      · exact ⟨h1, h2⟩
      · exact ⟨fun _ => rfl, fun _ => rfl⟩
    | eend =>
      simp only [stepConn, handleEvent]
      split
      · exact ⟨fun _ => rfl, fun _ => rfl⟩
      · next hr =>
        simp only [Bool.not_eq_true] at hr
        exact ⟨fun _ => hr, fun _ => hr⟩
    | eerr e =>
      simp only [stepConn, handleEvent]
      split
      · exact ⟨fun _ => rfl, fun _ => rfl⟩
      · next hr =>
        simp only [Bool.not_eq_true] at hr
        exact ⟨fun _ => hr, fun _ => hr⟩

theorem connInv_states (acts : List ConnAct) (conn : TCPConn) (h : connInv conn) :
    ∀ s ∈ connStates conn acts, connInv s := by
  induction acts generalizing conn with
  | nil =>
    intro s hs
    simp only [connStates, List.mem_singleton] at hs
    subst hs
    exact h
  | cons a as ih =>
    intro s hs
    simp only [connStates, List.mem_cons] at hs
    rcases hs with rfl | hs
    · exact h
    · exact ih (stepConn conn a) (connInv_step conn a h) s hs

theorem connInv_foldl (acts : List ConnAct) (c : TCPConn) (h : connInv c) :
    connInv (List.foldl stepConn c acts) := by
  induction acts generalizing c with
  | nil => exact h
  | cons a as ih => exact ih (stepConn c a) (connInv_step c a h)

theorem stepConn_latch (c : TCPConn) (a : ConnAct) :
    (c.err ≠ none → (stepConn c a).err ≠ none) ∧
    (c.ended = true → (stepConn c a).ended = true) := by
  cases a with
  | read =>
    by_cases hr : c.reader
    · simp [stepConn, soRead, hr]
    · cases herr : c.err with
      | some e => simp [stepConn, soRead, hr, herr]
      | none =>
        by_cases hend : c.ended
        · simp [stepConn, soRead, hr, herr, hend]
        · simp [stepConn, soRead, hr, herr, hend]
  | write d => exact ⟨id, id⟩
  | ev e =>
    cases e with
    | data chunk =>
      by_cases hr : c.reader
      · simp [stepConn, handleEvent, hr]
      · simp [stepConn, handleEvent, hr]
    | eend =>
      by_cases hr : c.reader
      · simp [stepConn, handleEvent, hr]
      · simp [stepConn, handleEvent, hr]
    | eerr e =>
      by_cases hr : c.reader
      · simp [stepConn, handleEvent, hr]
      · simp [stepConn, handleEvent, hr]

theorem connStates_chain (acts : List ConnAct) (c : TCPConn) :
    List.Chain' (fun s t => (s.err ≠ none → t.err ≠ none) ∧ (s.ended = true → t.ended = true))
      (connStates c acts) := by
  induction acts generalizing c with
  | nil => simp [connStates]
  | cons a as ih =>
    rw [connStates]
    refine List.Chain'.cons' (ih (stepConn c a)) ?_
    intro y hy
    have hhead : stepConn c a = y := by
      cases as with
      | nil => simpa [connStates] using hy
      | cons b bs => simpa [connStates] using hy
    rw [← hhead]
    exact stepConn_latch c a

/-- C5: calling `soRead` while a read is outstanding throws the
concurrent-read (protocol-violation) error, registering no second reader and
leaving the state unchanged; and on every reachable connection with `ended`
latched and no latched error, `soRead` resolves immediately with the empty
result without registering a pending reader (state unchanged). -/
theorem C5_read_contract (conn : TCPConn) (acts : List ConnAct)
    (hr : conn.reader = true)
    (hend : (runConn acts).ended = true) (herr : (runConn acts).err = none) :
    soRead conn = (.throwConcurrent, conn) ∧
    soRead (runConn acts) = (.resolvedEmpty, runConn acts) := by
  constructor
  · simp [soRead, hr]
  · have hinv : connInv (runConn acts) := connInv_foldl acts initConn connInv_init
    have hnr : (runConn acts).reader = false := hinv.2 hend
    simp [soRead, hnr, herr, hend]

/-- Witness for C5: a connection with an outstanding read, and the state
reached after an end event. -/
theorem C5_read_contract_witness :
    (TCPConn.mk none false true).reader = true ∧
    (runConn [ConnAct.ev SockEvent.eend]).ended = true ∧
    (runConn [ConnAct.ev SockEvent.eend]).err = none ∧
    (soRead (TCPConn.mk none false true) = (.throwConcurrent, TCPConn.mk none false true) ∧
     soRead (runConn [ConnAct.ev SockEvent.eend])
        = (.resolvedEmpty, runConn [ConnAct.ev SockEvent.eend])) :=
  ⟨rfl, by decide, by decide,
    C5_read_contract (TCPConn.mk none false true) [ConnAct.ev SockEvent.eend]
      rfl (by decide) (by decide)⟩

/-- C6 (amended): along any trace of socket events and `soRead`/`soWrite`
calls from `soInit`, a latched error is never cleared and a latched `ended`
is never cleared; in every reachable state with latched error `e`, `soRead`
rejects with `e` without state change and `soWrite` of non-empty data
rejects with `e`; an end event fulfills a pending read with the empty
result while latching `ended`, and an error event fulfills a pending read
with that error while latching `err`. -/
theorem C6_latched_error_end (acts : List ConnAct) :
    List.Chain' (fun s t => (s.err ≠ none → t.err ≠ none) ∧ (s.ended = true → t.ended = true))
      (connStates initConn acts) ∧
    (∀ s ∈ connStates initConn acts, ∀ e, s.err = some e →
      soRead s = (.rejected e, s) ∧
      ∀ d : List Nat, d ≠ [] → soWrite s d = .rejected e) ∧
    (∀ c : TCPConn, c.reader = true →
      handleEvent c .eend = ({ c with ended := true, reader := false }, .resolvedWith [])) ∧
    (∀ (c : TCPConn) (e : String), c.reader = true →
      handleEvent c (.eerr e) = ({ c with err := some e, reader := false }, .rejectedWith e)) := by
  refine ⟨connStates_chain acts initConn, ?_, ?_, ?_⟩
  · intro s hs e hse
    have hinv : connInv s := connInv_states acts initConn connInv_init s hs
    have hnr : s.reader = false := hinv.1 (by simp [hse])
    refine ⟨by simp [soRead, hnr, hse], ?_⟩
    intro d hd
    have hdl : ¬(d.length = 0) := by simpa using hd
    simp [soWrite, hdl, hse]
  · intro c hc
    simp [handleEvent, hc]
  · intro c e hc
    simp [handleEvent, hc]

/-- Counterexample to C6 as stated: with an error latched, a zero-length
`soWrite` fails with the invalid-argument error, not the latched error. -/
theorem C6_latched_error_end_counterexample :
    (runConn [ConnAct.ev (SockEvent.eerr "boom")]).err = some "boom" ∧
    soWrite (runConn [ConnAct.ev (SockEvent.eerr "boom")]) [] = .throwInvalidArgument ∧
    soWrite (runConn [ConnAct.ev (SockEvent.eerr "boom")]) [] ≠ .rejected "boom" := by
  refine ⟨rfl, rfl, ?_⟩
  decide

/-- Witness for C6 at a concrete trace that latches an error. -/
theorem C6_latched_error_end_witness :
    soRead (TCPConn.mk (some "boom") false false)
        = (.rejected "boom", TCPConn.mk (some "boom") false false) ∧
    soWrite (TCPConn.mk (some "boom") false false) [1] = .rejected "boom" := by
  have h := (C6_latched_error_end [ConnAct.ev (SockEvent.eerr "boom")]).2.1
  have hs : TCPConn.mk (some "boom") false false
      ∈ connStates initConn [ConnAct.ev (SockEvent.eerr "boom")] := by decide
  obtain ⟨hr, hw⟩ := h _ hs "boom" rfl
  exact ⟨hr, hw [1] (by decide)⟩

/-- C8: `soWrite` with zero-length data fails with the invalid-argument
error before any interaction with the transport (whatever the connection
state), and on a connection with a latched error a non-empty `soWrite`
fails immediately with that error without submitting the data. -/
theorem C8_write_contract :
    (∀ conn : TCPConn, soWrite conn [] = .throwInvalidArgument) ∧
    (∀ (conn : TCPConn) (data : List Nat) (e : String), conn.err = some e → data ≠ [] →
      soWrite conn data = .rejected e ∧ soWrite conn data ≠ .submitted) := by
  constructor
  · intro conn
    simp [soWrite]
  · intro conn data e herr hd
    have hdl : ¬(data.length = 0) := by simpa using hd
    constructor
    · simp [soWrite, hdl, herr]
    · simp [soWrite, hdl, herr]

/-- Witness for C8 on a connection with a latched error. -/
theorem C8_write_contract_witness :
    soWrite (TCPConn.mk (some "boom") false false) [] = .throwInvalidArgument ∧
    (soWrite (TCPConn.mk (some "boom") false false) [1] = .rejected "boom" ∧
     soWrite (TCPConn.mk (some "boom") false false) [1] ≠ .submitted) :=
  ⟨C8_write_contract.1 _, C8_write_contract.2 _ [1] "boom" rfl (by decide)⟩

-- Application layer (spec-modelled) and the heap model for message
-- independence.

/-- The bytes of the message "quit\n". -/
def quitMsg : List Nat := [113, 117, 105, 116, 10]

/-- The bytes of the fixed reply "Bye.\n". -/
def byeReply : List Nat := [66, 121, 101, 46, 10]

/-- The bytes of the fixed literal "Echo: " that starts every echo reply. -/
def echoMark : List Nat := [69, 99, 104, 111, 58, 32]

/-- Modelled from the spec: the echo/quit application logic layered on the
framing primitive is not present under `src/` (the serving loop in
`src/unnamed/part_001` is a plain byte echo on port 8080, while the e2e
tests exercise the echo/quit server on port 8000).  Per the spec, the
message `"quit\n"` triggers the fixed reply `"Bye.\n"` followed by
connection close, and any other message triggers the reply `"Echo: "`
concatenated with the original message bytes (delimiter included); the
boolean is the close-connection flag. -/
def serveMessage (msg : List Nat) : List Nat × Bool :=
  if msg = quitMsg then (byeReply, true) else (echoMark ++ msg, false)

/-- C2: for every complete message, `"quit\n"` yields the fixed reply
`"Bye.\n"` and connection close; any other message yields `"Echo: "`
concatenated with the original message bytes, delimiter included.  Grounded
against the repository's pipelining e2e expectation: the messages framed
from `"hell\n1234\nquit\n"` produce exactly `"Echo: hell\n"`,
`"Echo: 1234\n"`, `"Bye.\n"`. -/
theorem C2_echo_quit (msg : List Nat) :
    (msg = quitMsg → serveMessage msg = (byeReply, true)) ∧
    (msg ≠ quitMsg → serveMessage msg = (echoMark ++ msg, false)) ∧
    ((drainMessages 3 (bufPush emptyBuf
        [104, 101, 108, 108, 10, 49, 50, 51, 52, 10, 113, 117, 105, 116, 10])).1.map
          serveMessage
      = [([69, 99, 104, 111, 58, 32, 104, 101, 108, 108, 10], false),
         ([69, 99, 104, 111, 58, 32, 49, 50, 51, 52, 10], false),
         ([66, 121, 101, 46, 10], true)]) := by
  refine ⟨fun h => by simp [serveMessage, h], fun h => by simp [serveMessage, h], ?_⟩
  decide

/-- Witness for C2 at the quit message and a non-quit message. -/
theorem C2_echo_quit_witness :
    serveMessage quitMsg = (byeReply, true) ∧
    serveMessage [104, 10] = (echoMark ++ [104, 10], false) :=
  ⟨(C2_echo_quit quitMsg).1 rfl, (C2_echo_quit [104, 10]).2.1 (by decide)⟩

/-- A heap of byte-buffer cells: JS `Buffer` objects are mutable, so
aliasing between the source buffer's storage and an extracted message is
modelled with explicit references (indices into `cells`; allocation
appends). -/
structure Heap where
  cells : List (List Nat)
deriving Repr, DecidableEq

/-- Dereference a cell (unallocated references read as empty). -/
def Heap.read (h : Heap) (r : Nat) : List Nat := h.cells.getD r []

/-- Overwrite a cell in place. -/
def Heap.write (h : Heap) (r : Nat) (v : List Nat) : Heap := ⟨h.cells.set r v⟩

/-- Allocate a fresh cell, returning the new heap and the fresh reference. -/
def Heap.alloc (h : Heap) (v : List Nat) : Heap × Nat := (⟨h.cells ++ [v]⟩, h.cells.length)

/-- A dynamic buffer whose storage cell lives in the heap. -/
structure HBuf where
  dataRef : Nat
  length : Nat
deriving Repr, DecidableEq

/-- `bufPush` in the heap model: growth allocates a fresh storage cell and
repoints the buffer at it; the append then writes through the buffer's
(possibly new) reference. -/
def hBufPush (h : Heap) (buf : HBuf) (chunk : List Nat) : Heap × HBuf :=
  let dataV := h.read buf.dataRef
  let newLen := buf.length + chunk.length
  if dataV.length < newLen then
    let cap := growLoop newLen (max dataV.length 32) newLen
    let h1 := (h.alloc (bufCopy dataV (List.replicate cap 0) 0 0)).1
    let r1 := (h.alloc (bufCopy dataV (List.replicate cap 0) 0 0)).2
    (h1.write r1 (bufCopy chunk (h1.read r1) buf.length 0), HBuf.mk r1 newLen)
  else
    (h.write buf.dataRef (bufCopy chunk (h.read buf.dataRef) buf.length 0),
     HBuf.mk buf.dataRef newLen)

/-- `bufPop` in the heap model: an in-place `copyWithin` through the
buffer's reference. -/
def hBufPop (h : Heap) (buf : HBuf) (len : Nat) : Heap × HBuf :=
  (h.write buf.dataRef (bufCopyWithin (h.read buf.dataRef) len buf.length),
   HBuf.mk buf.dataRef (buf.length - len))

/-- `cutMessage` in the heap model: `Buffer.from(...)` allocates a fresh
cell holding the copied message bytes, then the source buffer is popped in
place. -/
def hCutMessage (h : Heap) (buf : HBuf) : Heap × Option Nat × HBuf :=
  match firstDelimIdx ((h.read buf.dataRef).take buf.length) with
  | none => (h, none, buf)
  | some i =>
    let a := h.alloc ((h.read buf.dataRef).take (i + 1))
    let p := hBufPop a.1 buf (i + 1)
    (p.1, some a.2, p.2)

/-- Apply one buffer operation in the heap model. -/
def hApplyOp (s : Heap × HBuf) (op : BufOp) : Heap × HBuf :=
  match op with
  | .push c => hBufPush s.1 s.2 c
  | .pop n => hBufPop s.1 s.2 n

theorem getD_set_ne (l : List (List Nat)) (i j : Nat) (v : List Nat) (hne : j ≠ i) :
    (l.set i v).getD j [] = l.getD j [] := by
  induction l generalizing i j with
  | nil => simp
  | cons a as ih =>
    cases i with
    | zero =>
      cases j with
      | zero => exact absurd rfl hne
      | succ j => simp [List.getD]
    | succ i =>
      cases j with
      | zero => simp [List.getD]
      | succ j => simpa [List.getD] using ih i j (by omega)

theorem getD_append_lt (l : List (List Nat)) (v : List Nat) (j : Nat) (hj : j < l.length) :
    (l ++ [v]).getD j [] = l.getD j [] := by
  induction l generalizing j with
  | nil => simp at hj
  | cons a as ih =>
    cases j with
    | zero => simp [List.getD]
    | succ j => simpa [List.getD] using ih j (by simpa using hj)

theorem hApplyOp_preserves (s : Heap × HBuf) (op : BufOp) (msgRef : Nat)
    (h1 : msgRef < s.1.cells.length) (h2 : s.2.dataRef ≠ msgRef) :
    msgRef < (hApplyOp s op).1.cells.length ∧
    (hApplyOp s op).2.dataRef ≠ msgRef ∧
    (hApplyOp s op).1.read msgRef = s.1.read msgRef := by
  cases op with
  | pop n =>
    refine ⟨?_, h2, ?_⟩
    · simpa [hApplyOp, hBufPop, Heap.write] using h1
    · exact getD_set_ne _ _ _ _ h2.symm
  | push c =>
    by_cases hg : (s.1.read s.2.dataRef).length < s.2.length + c.length
    · simp only [hApplyOp, hBufPush, if_pos hg]
      refine ⟨?_, ?_, ?_⟩
      · simp only [Heap.write, Heap.alloc, List.length_set, List.length_append]
        omega
      · simp only [Heap.alloc]
        omega
      · have hne : msgRef ≠ s.1.cells.length := by omega
        simp only [Heap.write, Heap.alloc, Heap.read]
        rw [getD_set_ne _ _ _ _ hne]
        exact getD_append_lt _ _ _ h1
    · simp only [hApplyOp, hBufPush, if_neg hg]
      refine ⟨?_, h2, ?_⟩
      · simpa [Heap.write] using h1
      · exact getD_set_ne _ _ _ _ h2.symm

theorem foldl_hApplyOp_reads (ops : List BufOp) (s : Heap × HBuf) (msgRef : Nat)
    (h1 : msgRef < s.1.cells.length) (h2 : s.2.dataRef ≠ msgRef) :
    (List.foldl hApplyOp s ops).1.read msgRef = s.1.read msgRef := by
  induction ops generalizing s with
  | nil => rfl
  | cons op rest ih =>
    obtain ⟨p1, p2, p3⟩ := hApplyOp_preserves s op msgRef h1 h2
    rw [List.foldl_cons, ih (hApplyOp s op) p1 p2, p3]

/-- C7: a message extracted by `cutMessage` is an independent copy, not an
alias of the buffer's storage — no later sequence of `bufPop`/`bufPush`
operations on the source buffer ever changes the bytes stored at the
message's reference. -/
theorem C7_message_independent (h : Heap) (buf : HBuf) (ops : List BufOp)
    (hr : buf.dataRef < h.cells.length)
    (h1 : Heap) (msgRef : Nat) (buf1 : HBuf)
    (hcut : hCutMessage h buf = (h1, some msgRef, buf1)) :
    (List.foldl hApplyOp (h1, buf1) ops).1.read msgRef = h1.read msgRef := by
  cases hfd : firstDelimIdx ((h.read buf.dataRef).take buf.length) with
  | none =>
    simp [hCutMessage, hfd] at hcut
  | some i =>
    simp only [hCutMessage, hfd, hBufPop, Heap.alloc, Prod.mk.injEq] at hcut
    obtain ⟨hh1, hmsg, hbuf1⟩ := hcut
    have hm : h.cells.length = msgRef := Option.some.inj hmsg
    refine foldl_hApplyOp_reads ops (h1, buf1) msgRef ?_ ?_
    · rw [← hh1]
      simp only [Heap.write, List.length_set, List.length_append, List.length_cons,
        List.length_nil]
      omega
    · rw [← hbuf1]
      dsimp only
      omega

/-- Witness for C7 at a concrete heap, extraction and operation sequence. -/
theorem C7_message_independent_witness :
    HBuf.mk 0 3 = HBuf.mk 0 3 ∧
    hCutMessage (Heap.mk [[97, 10, 98]]) (HBuf.mk 0 3)
        = (Heap.mk [[98, 10, 98], [97, 10]], some 1, HBuf.mk 0 1) ∧
    (List.foldl hApplyOp (Heap.mk [[98, 10, 98], [97, 10]], HBuf.mk 0 1)
        [BufOp.push [99, 100], BufOp.pop 1]).1.read 1
      = (Heap.mk [[98, 10, 98], [97, 10]]).read 1 :=
  ⟨rfl, by decide,
    C7_message_independent (Heap.mk [[97, 10, 98]]) (HBuf.mk 0 3)
      [BufOp.push [99, 100], BufOp.pop 1] (by decide) _ 1 _ (by decide)⟩
